import Mathlib

/-!
# Verification of the `database-go` B-tree core

A shallow embedding of the repository's B-tree storage engine
(`pkg/btree/node.go`, `pkg/btree/tree.go` and the extended node file).
A node buffer (Go `BNode = []byte`) is modelled as a total function
`Nat → Nat` holding byte values; every `uint16` computation of the Go
source is carried out modulo `2 ^ 16` (`M16`), matching Go's wrap-around
arithmetic, and every accessor that returns `(value, error)` in Go is
modelled as `Except String`.

Functions that exist in the sources only as declarations or empty stubs
(`nodeAppendKeyVal`, `checkLimit`, `nodeSplit3`, `nodeReplaceKidN`) are
modelled from the specification; each such definition carries a doc
comment starting with `Modelled from the spec:`.
-/

namespace DBGo

/-- A node buffer: a total byte array, indexed from 0.  Go slices are
fixed-length views; reads the program performs are always in range for the
buffers it allocates, so a total function loses nothing for those reads. -/
abbrev Buf := Nat → Nat

/-- The all-zero buffer (`make([]byte, ...)` in Go yields zeroed memory). -/
def zeroBuf : Buf := fun _ => 0

/-- Go `uint16` truncation. -/
def M16 (x : Nat) : Nat := x % 65536

/-- Read one byte; buffer cells are bytes, so reads truncate to `[0, 256)`. -/
def byteAt (b : Buf) (i : Nat) : Nat := b i % 256

/-- Write one byte. -/
def writeByte (b : Buf) (p x : Nat) : Buf := fun i => if i = p then x else b i

/-- Write a run of bytes starting at `p` (Go `copy`): positions
`[p, p + xs.length)` now hold the bytes of `xs`, the rest is unchanged. -/
def writeBytes (b : Buf) (p : Nat) (xs : List Nat) : Buf := fun i =>
  if p ≤ i ∧ i < p + xs.length then xs.getD (i - p) 0 else b i

/-- Read `n` consecutive bytes starting at `p` (a Go sub-slice, materialized). -/
def readBytes (b : Buf) : Nat → Nat → List Nat
  | _, 0 => []
  | p, Nat.succ n => byteAt b p :: readBytes b (p + 1) n

/-- `binary.LittleEndian.Uint16`. -/
def read16 (b : Buf) (p : Nat) : Nat := byteAt b p + 256 * byteAt b (p + 1)

/-- `binary.LittleEndian.PutUint16`. -/
def write16 (b : Buf) (p v : Nat) : Buf := writeBytes b p [v % 256, v / 256 % 256]

/-- `binary.LittleEndian.Uint64`. -/
def read64 (b : Buf) (p : Nat) : Nat :=
  byteAt b p + 256 * byteAt b (p + 1) + 256 ^ 2 * byteAt b (p + 2) +
    256 ^ 3 * byteAt b (p + 3) + 256 ^ 4 * byteAt b (p + 4) +
    256 ^ 5 * byteAt b (p + 5) + 256 ^ 6 * byteAt b (p + 6) +
    256 ^ 7 * byteAt b (p + 7)

/-- `binary.LittleEndian.PutUint64`. -/
def write64 (b : Buf) (p v : Nat) : Buf :=
  writeBytes b p [v % 256, v / 256 % 256, v / 256 ^ 2 % 256, v / 256 ^ 3 % 256,
    v / 256 ^ 4 % 256, v / 256 ^ 5 % 256, v / 256 ^ 6 % 256, v / 256 ^ 7 % 256]

/-! ## Constants (`node.go`) -/

def NODE : Nat := 1
def LEAF : Nat := 2
def BTREE_PAGE_SIZE_BYTES : Nat := 4096
def BTREE_MAX_KEY_SIZE_BYTES : Nat := 1000
def BREE_MAX_VAL_SIZE_BYTES : Nat := 3000
def HEADER_SIZE : Nat := 4

/-! ## Page codec (`BNode` methods) -/

/-- `BNode.btype`. -/
def btype (node : Buf) : Nat := read16 node 0

/-- `BNode.nkeys`. -/
def nkeys (node : Buf) : Nat := read16 node 2

/-- `BNode.setHeader`. -/
def setHeader (node : Buf) (t n : Nat) : Buf := write16 (write16 node 0 t) 2 n

/-- `BNode.isValidIndex`. -/
def isValidIndex (node : Buf) (index : Nat) : Bool := decide (index < nkeys node)

/-- Discard the error of a Go `(value, error)` pair, substituting the zero
value, as the `x, _ := f()` call sites of the source do. -/
def exceptD {α : Type} (e : Except String α) (d : α) : α :=
  match e with
  | .ok a => a
  | .error _ => d

/-- Whether an `Except` is a success. -/
def exceptIsOk {α : Type} (e : Except String α) : Bool :=
  match e with
  | .ok _ => true
  | .error _ => false

/-- `BNode.getPtr`. -/
def getPtr (node : Buf) (index : Nat) : Except String Nat :=
  if isValidIndex node index then .ok (read64 node (M16 (HEADER_SIZE + 8 * index)))
  else .error "out of range index"

/-- `BNode.setPtr`. -/
def setPtr (node : Buf) (index val : Nat) : Except String Buf :=
  if isValidIndex node index then .ok (write64 node (M16 (HEADER_SIZE + 8 * index)) val)
  else .error "out of range index"

/-- `BNode.getOffset`. -/
def getOffset (node : Buf) (index : Nat) : Nat :=
  if index = 0 then 0
  else read16 node (M16 (HEADER_SIZE + 8 * nkeys node + 2 * (index - 1)))

/-- `BNode.kvPos`. -/
def kvPos (node : Buf) (index : Nat) : Except String Nat :=
  if index ≤ nkeys node then
    .ok (M16 (HEADER_SIZE + 8 * nkeys node + 2 * nkeys node + getOffset node index))
  else .error "invalid index"

/-- `BNode.nbytes` (`kvpos, _ := node.kvPos(node.nkeys())`). -/
def nbytes (node : Buf) : Nat := exceptD (kvPos node (nkeys node)) 0

/-- `BNode.getValue`. -/
def getValue (node : Buf) (index : Nat) : Except String (List Nat) :=
  if nkeys node ≤ index then .error "index out of bounds when accessing key"
  else
    match kvPos node index with
    | .error e => .error e
    | .ok pos =>
      let keylength := read16 node pos
      let vallen := read16 node (M16 (pos + 2))
      .ok (readBytes node (M16 (pos + 4 + keylength)) vallen)

/-- `BNode.getKey`. -/
def getKey (node : Buf) (index : Nat) : Except String (List Nat) :=
  if nkeys node ≤ index then .error "index out of bounds when accessing key"
  else
    match kvPos node index with
    | .error e => .error e
    | .ok pos =>
      let keylen := read16 node pos
      .ok (readBytes node (M16 (pos + 4)) keylen)

/-- `key, _ := node.getKey(i)`: the error-discarding read (zero value `nil`). -/
def getKeyD (node : Buf) (index : Nat) : List Nat := exceptD (getKey node index) []

/-- `val, _ := node.getValue(i)`, error discarded. -/
def getValD (node : Buf) (index : Nat) : List Nat := exceptD (getValue node index) []

/-- `ptr, _ := node.getPtr(i)`, error discarded. -/
def getPtrD (node : Buf) (index : Nat) : Nat := exceptD (getPtr node index) 0

/-! ## Node builder -/

/-- Store the cumulative end-offset of entry `index - 1` (the slot that
`getOffset index` reads).  Not a named function of the sources; it is the
offset-table store that the layout of `getOffset` dictates. -/
def setOffset (node : Buf) (index offset : Nat) : Buf :=
  if index = 0 then node
  else write16 node (M16 (HEADER_SIZE + 8 * nkeys node + 2 * (index - 1))) offset

/-- Modelled from the spec: the body of `nodeAppendKeyVal` is an empty stub
in the sources.  Per §4.2 of the spec, `appendEntry` "writes one entry's
pointer, key, and value into the destination buffer at logical position
`dest_index`, recomputing and storing that position's cumulative offset",
using the §4.1 record layout (2-byte key length, 2-byte value length, key
bytes, value bytes at `kvPos`). -/
def nodeAppendKeyVal (next : Buf) (destination ptr : Nat) (key val : List Nat) : Buf :=
  let b1 := exceptD (setPtr next destination ptr) next
  match kvPos b1 destination with
  | .error _ => b1
  | .ok pos =>
    let b2 := write16 b1 pos key.length
    let b3 := write16 b2 (M16 (pos + 2)) val.length
    let b4 := writeBytes b3 (M16 (pos + 4)) key
    let b5 := writeBytes b4 (M16 (pos + 4 + key.length)) val
    setOffset b5 (M16 (destination + 1))
      (M16 (getOffset b5 destination + 4 + key.length + val.length))

/-- The loop body chain of `nodeAppendAcrossRange`: copy `n` entries,
current source/destination indices carried along. -/
def appendRangeAux : Buf → Buf → Nat → Nat → Nat → Buf
  | next, _, _, _, 0 => next
  | next, old, dest, src, Nat.succ k =>
    appendRangeAux
      (nodeAppendKeyVal next (M16 dest) (getPtrD old (M16 src))
        (getKeyD old (M16 src)) (getValD old (M16 src)))
      old (dest + 1) (src + 1) k

/-- `nodeAppendAcrossRange(next, old, dest, src, n)`. -/
def nodeAppendAcrossRange (next old : Buf) (dest src n : Nat) : Buf :=
  appendRangeAux next old dest src n

/-- `leafInsert(next, old, index, key, val)` — as written in the source it
sets the header to `old.nkeys()+1` and copies only `old[0:index]`. -/
def leafInsert (next old : Buf) (index : Nat) (key val : List Nat) : Buf :=
  let b := setHeader next LEAF (nkeys old + 1)
  nodeAppendAcrossRange b old 0 0 index

/-- `leafUpdate(next, old, index, key, val)`. -/
def leafUpdate (next old : Buf) (index : Nat) (key val : List Nat) : Buf :=
  let b := setHeader next LEAF (nkeys old)
  let b := nodeAppendAcrossRange b old 0 0 index
  let b := nodeAppendKeyVal b index 0 key val
  nodeAppendAcrossRange b old (M16 (index + 1)) (M16 (index + 1))
    (M16 (nkeys old + 65536 - M16 (index + 1)))

/-! ## Sorted lookup (`nodeLookupLE`) -/

/-- `bytes.Compare`: lexicographic byte-string comparison. -/
def bytesCompare : List Nat → List Nat → Int
  | [], [] => 0
  | [], _ :: _ => -1
  | _ :: _, [] => 1
  | a :: as, b :: bs => if a < b then -1 else if b < a then 1 else bytesCompare as bs

/-- `bytes.Equal`. -/
def bytesEqual (a b : List Nat) : Bool := decide (a = b)

/-- The scan loop of `nodeLookupLE`; `rem` is the number of remaining
iterations (`nkeys - i`), and `i - 1` is computed in `uint16` (underflowing
to 65535 at `i = 0`). -/
def nlLoop (node : Buf) (key : List Nat) : Nat → Nat → Nat
  | i, 0 => M16 (i + 65535)
  | i, Nat.succ rem =>
    let compkey := getKeyD node i
    let cmp := bytesCompare compkey key
    if cmp = 0 then i
    else if 0 < cmp then M16 (i + 65535)
    else nlLoop node key (i + 1) rem

/-- `nodeLookupLE(node, key)`. -/
def nodeLookupLE (node : Buf) (key : List Nat) : Nat :=
  nlLoop node key 0 (nkeys node)

/-- The result of `nodeLookupLE` read back as the signed value the `uint16`
wrap-around encodes: 65535 is `-1`, the underflow sentinel. -/
def lookupZ (node : Buf) (key : List Nat) : Int :=
  if nodeLookupLE node key = 65535 then -1 else (nodeLookupLE node key : Int)

/-! ## Splitter (`nodeSplitInHalf`) -/

/-- The `left_bytes` closure of `nodeSplitInHalf`, `uint16` arithmetic. -/
def splitLeftBytes (old : Buf) (numleft : Nat) : Nat :=
  M16 (4 + 8 * numleft + 2 * numleft + getOffset old numleft)

/-- The `right_bytes` closure of `nodeSplitInHalf`:
`old.nbytes() - left_bytes()*4`, `uint16` arithmetic (wrapping subtraction). -/
def splitRightBytes (old : Buf) (numleft : Nat) : Nat :=
  M16 (nbytes old + 65536 - M16 (splitLeftBytes old numleft * 4))

/-- The first (shrinking) loop of `nodeSplitInHalf`; the decrement wraps in
`uint16`.  The Go loop is unbounded; 65536 steps of fuel cover every state
of the `uint16` counter once. -/
def shrinkLeft (old : Buf) : Nat → Nat → Nat
  | 0, numleft => numleft
  | Nat.succ f, numleft =>
    if BTREE_PAGE_SIZE_BYTES < splitLeftBytes old numleft then
      shrinkLeft old f (M16 (numleft + 65535))
    else numleft

/-- The second (growing) loop of `nodeSplitInHalf`. -/
def growLeft (old : Buf) : Nat → Nat → Nat
  | 0, numleft => numleft
  | Nat.succ f, numleft =>
    if BTREE_PAGE_SIZE_BYTES < splitRightBytes old numleft then
      growLeft old f (M16 (numleft + 1))
    else numleft

/-- `nodeSplitInHalf(left, right, old)`: the written `left`/`right` buffers
are returned on success. -/
def nodeSplitInHalf (left right old : Buf) : Except String (Buf × Buf) :=
  let nk := nkeys old
  if nk < 2 then
    .error "placeholder error for when splitting a node in half; number of keys in old less than 2"
  else
    let numleft1 := shrinkLeft old 65536 (nk / 2)
    if numleft1 < 1 then
      .error "error: number of keys on the left after split attempt was 0."
    else
      let numleft2 := growLeft old 65536 numleft1
      if nk ≤ numleft2 then .error "error when shifting keys"
      else
        let numRight := M16 (nk + 65536 - numleft2)
        let l := setHeader left (btype old) numleft2
        let r := setHeader right (btype old) numRight
        let l2 := nodeAppendAcrossRange l old 0 0 numleft2
        let r2 := nodeAppendAcrossRange r old 0 0 numRight
        .ok (l2, r2)

/-! ## Page store and tree handle (`tree.go`)

The Go `BTree` carries three injected operations `get`/`create`/`del`.
They are modelled by an explicit store state: a page table, a fresh-id
counter, and logs of every `create` and `del` call issued. -/

structure Store where
  pages : Nat → Buf
  nextId : Nat
  created : List Nat
  deleted : List Nat

/-- `tree.get(ptr)`. -/
def storeGet (s : Store) (p : Nat) : Buf := s.pages p

/-- `tree.create(data)`: allocate a fresh page id, record the call. -/
def storeCreate (s : Store) (b : Buf) : Nat × Store :=
  (s.nextId,
    ⟨fun p => if p = s.nextId then b else s.pages p, s.nextId + 1,
      s.created ++ [s.nextId], s.deleted⟩)

/-- `tree.del(ptr)`: record the call. -/
def storeDel (s : Store) (p : Nat) : Store :=
  ⟨s.pages, s.nextId, s.created, s.deleted ++ [p]⟩

/-- The mutable state of a `BTree` handle: the root page id plus the store. -/
structure TState where
  root : Nat
  store : Store

def MERGE_THRESHOLD_BTYES : Nat := BTREE_PAGE_SIZE_BYTES / 4

/-- Go `BNode{}`: the empty node value returned on "no merge". -/
def emptyBNode : Buf := fun _ => 0

/-- `shouldMerge(tree, node, index, updated)`; `mergedSize` is computed in
`uint16` (`sibling.nbytes() + updated.nbytes() - HEADER_SIZE`). -/
def shouldMerge (get : Nat → Buf) (node : Buf) (index : Nat) (updated : Buf) :
    Int × Buf :=
  if MERGE_THRESHOLD_BTYES < nbytes updated then (0, emptyBNode)
  else
    let tryLeft : Option (Int × Buf) :=
      if 0 < index then
        let sibling := get (getPtrD node (index - 1))
        let mergedSize := M16 (nbytes sibling + nbytes updated + 65536 - HEADER_SIZE)
        if mergedSize ≤ BTREE_PAGE_SIZE_BYTES then some (-1, sibling) else none
      else none
    match tryLeft with
    | some r => r
    | none =>
      if index + 1 < nkeys node then
        let sibling := get (getPtrD node (index + 1))
        let mergedSize := M16 (nbytes sibling + nbytes updated + 65536 - HEADER_SIZE)
        if mergedSize ≤ BTREE_PAGE_SIZE_BYTES then (1, sibling) else (0, emptyBNode)
      else (0, emptyBNode)

/-! ## Entry lists and built nodes

`Entry` is the logical content of one node slot: child pointer, key bytes,
value bytes.  `buildNode` assembles a buffer exactly the way every call
site of the source does: set the header, then append the entries at
positions `0, 1, ...` with `nodeAppendKeyVal`. -/

abbrev Entry := Nat × List Nat × List Nat

def dEntry : Entry := (0, [], [])

/-- Encoded size of one entry's data record. -/
def entrySize (e : Entry) : Nat := 4 + e.2.1.length + e.2.2.length

/-- Cumulative data size of the first `j` entries. -/
def cum (es : List Entry) (j : Nat) : Nat := ((es.take j).map entrySize).sum

/-- Append the listed entries at consecutive positions starting at `j`. -/
def buildAux : Buf → Nat → List Entry → Buf
  | b, _, [] => b
  | b, j, e :: rest => buildAux (nodeAppendKeyVal b j e.1 e.2.1 e.2.2) (j + 1) rest

/-- Assemble a node buffer from a type tag and an entry list. -/
def buildNode (t : Nat) (es : List Entry) : Buf :=
  buildAux (setHeader zeroBuf t es.length) 0 es

/-- Invariant of the node-builder loop: after the first `j` entries of
`es` have been appended into a buffer whose header count is `es.length`,
the header, the child-pointer slots, the offset slots and the data records
written so far all decode to what was appended. -/
def BuildInv (es : List Entry) (j : Nat) (b : Buf) : Prop :=
  nkeys b = es.length ∧
  (∀ i, i ≤ j → getOffset b i = cum es i) ∧
  (∀ i, i < j →
    read64 b (4 + 8 * i) = (es.getD i dEntry).1 % 18446744073709551616) ∧
  (∀ i, i < j →
    read16 b (4 + 10 * es.length + cum es i) = (es.getD i dEntry).2.1.length ∧
    read16 b (4 + 10 * es.length + cum es i + 2) = (es.getD i dEntry).2.2.length ∧
    readBytes b (4 + 10 * es.length + cum es i + 4) (es.getD i dEntry).2.1.length =
      (es.getD i dEntry).2.1 ∧
    readBytes b (4 + 10 * es.length + cum es i + 4 + (es.getD i dEntry).2.1.length)
      (es.getD i dEntry).2.2.length = (es.getD i dEntry).2.2)

/-- The decoded keys of a node, in slot order (errors discarded). -/
def keysOf (b : Buf) : List (List Nat) :=
  (List.range (nkeys b)).map (fun i => getKeyD b i)

/-- The decoded entries of a node, in slot order (errors discarded). -/
def entriesOf (b : Buf) : List Entry :=
  (List.range (nkeys b)).map (fun i => (getPtrD b i, getKeyD b i, getValD b i))

/-! ## Tree walker (`tree.go`) -/

/-- Modelled from the spec: `checkLimit` is called by `Insert` but defined
nowhere in the sources.  Per §6/§7 of the spec it "fails with a size-limit
error when key or value exceeds the configured maximum" (1000 / 3000
bytes), mutating nothing. -/
def checkLimit (key val : List Nat) : Except String Unit :=
  if BTREE_MAX_KEY_SIZE_BYTES < key.length then .error "key size limit exceeded"
  else if BREE_MAX_VAL_SIZE_BYTES < val.length then .error "value size limit exceeded"
  else .ok ()

/-- The shrink loop used by the modelled splitter below: largest prefix
count `m` whose one-page encoded size fits, walking down from `n / 2`. -/
def splitFindLeft (es : List Entry) : Nat → Nat → Nat
  | 0, m => m
  | Nat.succ f, m =>
    if BTREE_PAGE_SIZE_BYTES < 4 + 10 * m + cum es m then splitFindLeft es f (m - 1)
    else m

/-- Modelled from the spec: `nodeSplit3` is called by the tree walker but
defined nowhere in the sources.  Per §4.3, it returns the input unchanged
when it fits one page, otherwise splits it into two halves by entry count
(shrinking the left half until it fits), splitting once more into a third
page when the remainder still does not fit. -/
def nodeSplit3 (node : Buf) : Nat × List Buf :=
  if nbytes node ≤ BTREE_PAGE_SIZE_BYTES then (1, [node])
  else
    let es := entriesOf node
    let m := splitFindLeft es es.length (es.length / 2)
    let l := buildNode (btype node) (es.take m)
    let rest := es.drop m
    if 4 + 10 * rest.length + cum rest rest.length ≤ BTREE_PAGE_SIZE_BYTES then
      (2, [l, buildNode (btype node) rest])
    else
      let m2 := splitFindLeft rest rest.length (rest.length / 2)
      (3, [l, buildNode (btype node) (rest.take m2),
        buildNode (btype node) (rest.drop m2)])

/-- The per-child loop shared by the root-split branch of `Insert` (source)
and the modelled `nodeReplaceKidN`: create a page for each child buffer and
append `(ptr, child's first key, nil)` at consecutive positions. -/
def appendKids : Store → Buf → Nat → List Buf → Buf × Store
  | s, b, _, [] => (b, s)
  | s, b, pos, k :: ks =>
    let cs := storeCreate s k
    appendKids cs.2 (nodeAppendKeyVal b pos cs.1 (getKeyD k 0) []) (pos + 1) ks

/-- Modelled from the spec: `nodeReplaceKidN` is called by `treeInsert` but
defined nowhere in the sources.  Per §4.2, it "builds a new INTERNAL node
where child entry `index` is replaced by 1-3 entries (the result of a child
split), shifting subsequent entries accordingly", creating a page per
replacement child. -/
def nodeReplaceKidN (s : Store) (next node : Buf) (index : Nat) (kids : List Buf) :
    Buf × Store :=
  let b := setHeader next NODE (M16 (nkeys node + kids.length + 65535))
  let b2 := nodeAppendAcrossRange b node 0 0 index
  let bs := appendKids s b2 index kids
  (nodeAppendAcrossRange bs.1 node (M16 (index + kids.length)) (M16 (index + 1))
    (M16 (nkeys node + 65536 - M16 (index + 1))), bs.2)

/-- `treeInsert(tree, node, key, val)`.  The Go recursion descends through
`tree.get`; the embedding bounds it with explicit fuel (`none` = fuel
exhausted, an artifact of the embedding, not a result of the program).
In the LEAF branch the source shadows the parameter `key` with the
looked-up key (`key, _ := node.getKey(index)`), compares that shadowed key
with itself, and passes it on; `lkey` is that shadowed variable. -/
def treeInsert (fuel : Nat) (s : Store) (node : Buf) (key val : List Nat) :
    Option (Buf × Store) :=
  let index := nodeLookupLE node key
  if btype node = LEAF then
    let lkey := getKeyD node index
    if bytesEqual lkey lkey then some (leafUpdate zeroBuf node index lkey val, s)
    else some (leafInsert zeroBuf node (M16 (index + 1)) lkey val, s)
  else if btype node = NODE then
    match fuel with
    | 0 => none
    | Nat.succ f =>
      let kptr := getPtrD node index
      match treeInsert f s (storeGet s kptr) key val with
      | none => none
      | some r =>
        let sp := nodeSplit3 r.1
        let s2 := storeDel r.2 kptr
        some (nodeReplaceKidN s2 zeroBuf node index (sp.2.take sp.1))
  else some (zeroBuf, s)

/-- `(*BTree).Insert(key, val)`: returns the updated handle state and the
returned error (`none` = nil).  `none` at the outside means the embedding's
fuel ran out inside `treeInsert`. -/
def Insert (fuel : Nat) (t : TState) (key val : List Nat) :
    Option (TState × Option String) :=
  match checkLimit key val with
  | .error e => some (t, some e)
  | .ok _ =>
    if t.root = 0 then
      let root0 := setHeader zeroBuf LEAF 2
      let root1 := nodeAppendKeyVal root0 0 0 [] []
      let root2 := nodeAppendKeyVal root1 1 1 [] []
      let cs := storeCreate t.store root2
      some (⟨cs.1, cs.2⟩, none)
    else
      match treeInsert fuel t.store (storeGet t.store t.root) key val with
      | none => none
      | some r =>
        let sp := nodeSplit3 r.1
        let s2 := storeDel r.2 t.root
        if 1 < sp.1 then
          let rootb := setHeader zeroBuf NODE sp.1
          let bs := appendKids s2 rootb 0 (sp.2.take sp.1)
          let cs := storeCreate bs.2 bs.1
          some (⟨cs.1, cs.2⟩, none)
        else
          let cs := storeCreate s2 (sp.2.headD zeroBuf)
          some (⟨cs.1, cs.2⟩, none)

/-! ## Concrete instances used to evaluate the code on specific inputs -/

/-- A store with no live pages and fresh ids starting at 1. -/
def emptyStore : Store := ⟨fun _ => zeroBuf, 1, [], []⟩

/-- A two-entry LEAF: the empty sentinel key, then key "a" with value "1". -/
def c1node : Buf := buildNode LEAF [(0, [], []), (0, [97], [49])]

/-- `treeInsert` applied to `c1node` with the fresh key "b" and value "2". -/
def c1res : Option (Buf × Store) := treeInsert 0 emptyStore c1node [98] [50]

/-- The buffer produced by `c1res`. -/
def c1buf : Buf := (c1res.getD (zeroBuf, emptyStore)).1

/-- A one-entry LEAF holding key "a" with value "1". -/
def c2old : Buf := buildNode LEAF [(0, [97], [49])]

/-- A two-entry LEAF with strictly increasing keys `""` and `"a"`, used to
instantiate the lookup theorem. -/
def c4node : Buf := buildNode LEAF [(0, [], []), (0, [97], [49])]

/-- `leafInsert` of key "b", value "2" at position 1 of `c2old`. -/
def c2buf : Buf := leafInsert zeroBuf c2old 1 [98] [50]

/-- A five-entry LEAF with keys `[1], [2], [3,3,3,3], [4], [5]` and entry
data sizes 10, 10, 400, 30, 30 bytes (total encoded size 534 bytes). -/
def c5old : Buf :=
  let b := setHeader zeroBuf LEAF 5
  let b := write16 b 44 10
  let b := write16 b 46 20
  let b := write16 b 48 420
  let b := write16 b 50 450
  let b := write16 b 52 480
  let b := write16 b 54 1
  let b := write16 b 56 5
  let b := writeByte b 58 1
  let b := write16 b 64 1
  let b := write16 b 66 5
  let b := writeByte b 68 2
  let b := write16 b 74 4
  let b := write16 b 76 392
  let b := writeBytes b 78 [3, 3, 3, 3]
  let b := write16 b 474 1
  let b := write16 b 476 25
  let b := writeByte b 478 4
  let b := write16 b 504 1
  let b := write16 b 506 25
  writeByte b 508 5

/-- `nodeSplitInHalf` applied to `c5old`. -/
def c5res : Except String (Buf × Buf) := nodeSplitInHalf zeroBuf zeroBuf c5old

/-- The two halves produced by `c5res`. -/
def c5pair : Buf × Buf := exceptD c5res (zeroBuf, zeroBuf)

/-- A five-entry LEAF with entry data sizes 1012, 1012, 2104, 2005, 2005
bytes (key/value lengths 500/508, 500/508, 1050/1050, 1000/1001,
1000/1001; all key and value bytes zero); its encoded size is exactly two
pages, 8192 bytes. -/
def c6old : Buf :=
  let b := setHeader zeroBuf LEAF 5
  let b := write16 b 44 1012
  let b := write16 b 46 2024
  let b := write16 b 48 4128
  let b := write16 b 50 6133
  let b := write16 b 52 8138
  let b := write16 b 54 500
  let b := write16 b 56 508
  let b := write16 b 1066 500
  let b := write16 b 1068 508
  let b := write16 b 2078 1050
  let b := write16 b 2080 1050
  let b := write16 b 4182 1000
  let b := write16 b 4184 1001
  let b := write16 b 6187 1000
  write16 b 6189 1001

/-- `nodeSplitInHalf` applied to `c6old`. -/
def c6res : Except String (Buf × Buf) := nodeSplitInHalf zeroBuf zeroBuf c6old

/-- The two halves produced by `c6res`. -/
def c6pair : Buf × Buf := exceptD c6res (zeroBuf, zeroBuf)

/-- The handle state of an empty tree (root id 0, no live pages). -/
def c8state : TState := ⟨0, ⟨fun _ => zeroBuf, 1, [], []⟩⟩

/-- `Insert("a", "1")` on the empty tree. -/
def c8res : Option (TState × Option String) := Insert 0 c8state [97] [49]

/-- The handle state after `c8res`. -/
def c8t : TState := (c8res.getD (c8state, none)).1

/-- The root page after `c8res`. -/
def c8root : Buf := storeGet c8t.store c8t.root

/-! ## Theorems -/

/-! ### Read/write commuting lemmas for the byte-buffer primitives -/

theorem byteAt_lt (b : Buf) (i : Nat) : byteAt b i < 256 := by
  unfold byteAt
  omega

theorem read16_lt (b : Buf) (p : Nat) : read16 b p < 65536 := by
  unfold read16
  have h1 := byteAt_lt b p
  have h2 := byteAt_lt b (p + 1)
  omega

theorem nkeys_lt (node : Buf) : nkeys node < 65536 := read16_lt node 2

theorem byteAt_writeBytes_out (b : Buf) (p : Nat) (xs : List Nat) (i : Nat)
    (h : i < p ∨ p + xs.length ≤ i) : byteAt (writeBytes b p xs) i = byteAt b i := by
  unfold byteAt writeBytes
  rw [if_neg]
  omega

theorem byteAt_writeBytes_in (b : Buf) (p : Nat) (xs : List Nat) (i : Nat)
    (h1 : p ≤ i) (h2 : i < p + xs.length) :
    byteAt (writeBytes b p xs) i = xs.getD (i - p) 0 % 256 := by
  unfold byteAt writeBytes
  rw [if_pos ⟨h1, h2⟩]

theorem byteAt_write16_out (b : Buf) (p v i : Nat) (h : i < p ∨ p + 2 ≤ i) :
    byteAt (write16 b p v) i = byteAt b i := by
  unfold write16
  exact byteAt_writeBytes_out b p _ i (by simpa using h)

theorem byteAt_write64_out (b : Buf) (p v i : Nat) (h : i < p ∨ p + 8 ≤ i) :
    byteAt (write64 b p v) i = byteAt b i := by
  unfold write64
  exact byteAt_writeBytes_out b p _ i (by simpa using h)

theorem read16_write16_self (b : Buf) (p v : Nat) :
    read16 (write16 b p v) p = v % 65536 := by
  unfold read16 write16
  rw [byteAt_writeBytes_in b p _ p (by omega) (by simp),
    byteAt_writeBytes_in b p _ (p + 1) (by omega) (by simp)]
  simp
  omega

theorem read16_write16_out (b : Buf) (p v q : Nat) (h : q + 1 < p ∨ p + 2 ≤ q) :
    read16 (write16 b p v) q = read16 b q := by
  unfold read16
  rw [byteAt_write16_out b p v q (by omega), byteAt_write16_out b p v (q + 1) (by omega)]

theorem read16_write64_out (b : Buf) (p v q : Nat) (h : q + 1 < p ∨ p + 8 ≤ q) :
    read16 (write64 b p v) q = read16 b q := by
  unfold read16
  rw [byteAt_write64_out b p v q (by omega), byteAt_write64_out b p v (q + 1) (by omega)]

theorem read16_writeBytes_out (b : Buf) (p : Nat) (xs : List Nat) (q : Nat)
    (h : q + 1 < p ∨ p + xs.length ≤ q) : read16 (writeBytes b p xs) q = read16 b q := by
  unfold read16
  rw [byteAt_writeBytes_out b p xs q (by omega), byteAt_writeBytes_out b p xs (q + 1) (by omega)]

theorem read64_write64_self (b : Buf) (p v : Nat) :
    read64 (write64 b p v) p = v % 18446744073709551616 := by
  unfold read64 write64
  rw [byteAt_writeBytes_in b p _ p (by omega) (by simp),
    byteAt_writeBytes_in b p _ (p + 1) (by omega) (by simp),
    byteAt_writeBytes_in b p _ (p + 2) (by omega) (by simp),
    byteAt_writeBytes_in b p _ (p + 3) (by omega) (by simp),
    byteAt_writeBytes_in b p _ (p + 4) (by omega) (by simp),
    byteAt_writeBytes_in b p _ (p + 5) (by omega) (by simp),
    byteAt_writeBytes_in b p _ (p + 6) (by omega) (by simp),
    byteAt_writeBytes_in b p _ (p + 7) (by omega) (by simp)]
  simp
  omega

theorem read64_write16_out (b : Buf) (p v q : Nat) (h : q + 7 < p ∨ p + 2 ≤ q) :
    read64 (write16 b p v) q = read64 b q := by
  unfold read64
  rw [byteAt_write16_out b p v q (by omega), byteAt_write16_out b p v (q + 1) (by omega),
    byteAt_write16_out b p v (q + 2) (by omega), byteAt_write16_out b p v (q + 3) (by omega),
    byteAt_write16_out b p v (q + 4) (by omega), byteAt_write16_out b p v (q + 5) (by omega),
    byteAt_write16_out b p v (q + 6) (by omega), byteAt_write16_out b p v (q + 7) (by omega)]

theorem read64_write64_out (b : Buf) (p v q : Nat) (h : q + 7 < p ∨ p + 8 ≤ q) :
    read64 (write64 b p v) q = read64 b q := by
  unfold read64
  rw [byteAt_write64_out b p v q (by omega), byteAt_write64_out b p v (q + 1) (by omega),
    byteAt_write64_out b p v (q + 2) (by omega), byteAt_write64_out b p v (q + 3) (by omega),
    byteAt_write64_out b p v (q + 4) (by omega), byteAt_write64_out b p v (q + 5) (by omega),
    byteAt_write64_out b p v (q + 6) (by omega), byteAt_write64_out b p v (q + 7) (by omega)]

theorem read64_writeBytes_out (b : Buf) (p : Nat) (xs : List Nat) (q : Nat)
    (h : q + 7 < p ∨ p + xs.length ≤ q) : read64 (writeBytes b p xs) q = read64 b q := by
  unfold read64
  rw [byteAt_writeBytes_out b p xs q (by omega), byteAt_writeBytes_out b p xs (q + 1) (by omega),
    byteAt_writeBytes_out b p xs (q + 2) (by omega),
    byteAt_writeBytes_out b p xs (q + 3) (by omega),
    byteAt_writeBytes_out b p xs (q + 4) (by omega),
    byteAt_writeBytes_out b p xs (q + 5) (by omega),
    byteAt_writeBytes_out b p xs (q + 6) (by omega),
    byteAt_writeBytes_out b p xs (q + 7) (by omega)]

theorem readBytes_congr (b1 b2 : Buf) :
    ∀ (n p : Nat), (∀ j, j < n → byteAt b1 (p + j) = byteAt b2 (p + j)) →
      readBytes b1 p n = readBytes b2 p n := by
  intro n
  induction n with
  | zero => intro p _; rfl
  | succ m ih =>
    intro p h
    unfold readBytes
    have h0 := h 0 (by omega)
    simp only [Nat.add_zero] at h0
    rw [h0, ih (p + 1) (fun j hj => by
      have h2 := h (j + 1) (by omega)
      have e : p + (j + 1) = p + 1 + j := by omega
      rw [e] at h2
      exact h2)]

theorem readBytes_writeBytes_out (b : Buf) (p : Nat) (xs : List Nat) (q n : Nat)
    (h : q + n ≤ p ∨ p + xs.length ≤ q) :
    readBytes (writeBytes b p xs) q n = readBytes b q n := by
  exact readBytes_congr _ b n q (fun j hj => byteAt_writeBytes_out b p xs (q + j) (by omega))

theorem readBytes_write16_out (b : Buf) (p v q n : Nat) (h : q + n ≤ p ∨ p + 2 ≤ q) :
    readBytes (write16 b p v) q n = readBytes b q n := by
  unfold write16
  exact readBytes_writeBytes_out b p _ q n (by simpa using h)

theorem readBytes_write64_out (b : Buf) (p v q n : Nat) (h : q + n ≤ p ∨ p + 8 ≤ q) :
    readBytes (write64 b p v) q n = readBytes b q n := by
  unfold write64
  exact readBytes_writeBytes_out b p _ q n (by simpa using h)

theorem readBytes_writeBytes_self (b : Buf) (p : Nat) (xs : List Nat)
    (hb : ∀ x ∈ xs, x < 256) :
    readBytes (writeBytes b p xs) p xs.length = xs := by
  induction xs generalizing b p with
  | nil => rfl
  | cons x tail ih =>
    unfold readBytes
    simp only [List.length_cons]
    have hhead : byteAt (writeBytes b p (x :: tail)) p = x := by
      rw [byteAt_writeBytes_in b p _ p (by omega) (by simp)]
      simp
      exact hb x (by simp)
    rw [hhead]
    have htail : readBytes (writeBytes b p (x :: tail)) (p + 1) tail.length =
        readBytes (writeBytes b (p + 1) tail) (p + 1) tail.length := by
      apply readBytes_congr
      intro j hj
      rw [byteAt_writeBytes_in b p (x :: tail) (p + 1 + j) (by omega) (by simp; omega),
        byteAt_writeBytes_in b (p + 1) tail (p + 1 + j) (by omega) (by omega)]
      have : p + 1 + j - p = (p + 1 + j - (p + 1)) + 1 := by omega
      rw [this]
      simp
    rw [htail, ih b (p + 1) (fun y hy => hb y (by simp [hy]))]

theorem byteAt_setHeader (b : Buf) (t n i : Nat) :
    byteAt (setHeader b t n) i =
      if i = 2 then n % 256
      else if i = 3 then n / 256 % 256
      else if i = 0 then t % 256
      else if i = 1 then t / 256 % 256
      else byteAt b i := by
  unfold setHeader write16
  by_cases h2 : i = 2
  · subst h2
    rw [byteAt_writeBytes_in _ 2 _ 2 (by omega) (by simp)]
    simp
  · by_cases h3 : i = 3
    · subst h3
      rw [byteAt_writeBytes_in _ 2 _ 3 (by omega) (by simp)]
      simp
    · rw [byteAt_writeBytes_out _ 2 _ i (by simp; omega)]
      by_cases h0 : i = 0
      · subst h0
        rw [byteAt_writeBytes_in _ 0 _ 0 (by omega) (by simp)]
        simp [h2, h3]
      · by_cases h1 : i = 1
        · subst h1
          rw [byteAt_writeBytes_in _ 0 _ 1 (by omega) (by simp)]
          simp [h2, h3]
        · rw [byteAt_writeBytes_out _ 0 _ i (by simp; omega)]
          simp [h0, h1, h2, h3]

theorem nkeys_setHeader (b : Buf) (t n : Nat) : nkeys (setHeader b t n) = n % 65536 := by
  unfold nkeys read16
  rw [byteAt_setHeader, byteAt_setHeader]
  simp
  omega

theorem btype_setHeader (b : Buf) (t n : Nat) : btype (setHeader b t n) = t % 65536 := by
  unfold btype read16
  rw [byteAt_setHeader, byteAt_setHeader]
  simp
  omega

theorem getOffset_zero (node : Buf) : getOffset node 0 = 0 := by
  simp [getOffset]

theorem read16_setHeader_out (b : Buf) (t n q : Nat) (h : 4 ≤ q) :
    read16 (setHeader b t n) q = read16 b q := by
  unfold read16
  rw [byteAt_setHeader, byteAt_setHeader]
  have h1 : ¬ q = 2 := by omega
  have h2 : ¬ q = 3 := by omega
  have h3 : ¬ q = 0 := by omega
  have h4 : ¬ q = 1 := by omega
  have h5 : ¬ q + 1 = 2 := by omega
  have h6 : ¬ q + 1 = 3 := by omega
  have h7 : ¬ q + 1 = 0 := by omega
  have h8 : ¬ q + 1 = 1 := by omega
  simp [h1, h2, h3, h4, h5, h6, h7, h8]

/-- C10: confirmed.  The encoded layout reserves the 8-byte-per-entry
pointer table for every node type: with `n` entries, the data region
starts at `kvPos 0 = 4 + 8*n + 2*n` (in `uint16`), `nbytes()` equals
`kvPos` at index `n`, which includes the `8*n` pointer table, and `kvPos`
is insensitive to the type tag in the header — a LEAF-tagged and an
INTERNAL-tagged node with the same count and body decode identically. -/
theorem C10_layout (node : Buf) :
    kvPos node 0 = .ok (M16 (HEADER_SIZE + 8 * nkeys node + 2 * nkeys node)) ∧
    nbytes node =
      M16 (HEADER_SIZE + 8 * nkeys node + 2 * nkeys node + getOffset node (nkeys node)) ∧
    (∀ b t1 t2 n i, n ≤ 6552 → i ≤ n →
      kvPos (setHeader b t1 n) i = kvPos (setHeader b t2 n) i) := by
  refine ⟨?_, ?_, ?_⟩
  · unfold kvPos
    rw [if_pos (Nat.zero_le _), getOffset_zero]
    rw [Nat.add_zero]
  · unfold nbytes kvPos
    rw [if_pos (Nat.le_refl _)]
    rfl
  · intro b t1 t2 n i hn hi
    have hmod : n % 65536 = n := Nat.mod_eq_of_lt (by omega)
    have hk1 : nkeys (setHeader b t1 n) = n := by rw [nkeys_setHeader, hmod]
    have hk2 : nkeys (setHeader b t2 n) = n := by rw [nkeys_setHeader, hmod]
    have hoff : getOffset (setHeader b t1 n) i = getOffset (setHeader b t2 n) i := by
      unfold getOffset
      rw [hk1, hk2]
      by_cases h0 : i = 0
      · simp [h0]
      · rw [if_neg h0, if_neg h0]
        have hpos : M16 (HEADER_SIZE + 8 * n + 2 * (i - 1)) =
            HEADER_SIZE + 8 * n + 2 * (i - 1) := by
          unfold M16 HEADER_SIZE
          omega
        rw [hpos, read16_setHeader_out _ _ _ _ (by unfold HEADER_SIZE; omega),
          read16_setHeader_out _ _ _ _ (by unfold HEADER_SIZE; omega)]
    unfold kvPos
    rw [hk1, hk2, hoff]

/-- Witness for C10 at concrete inputs. -/
theorem C10_layout_witness :
    kvPos (setHeader zeroBuf LEAF 3) 2 = kvPos (setHeader zeroBuf NODE 3) 2 :=
  (C10_layout zeroBuf).2.2 zeroBuf LEAF NODE 3 2 (by decide) (by decide)

/-- C7: confirmed.  `shouldMerge` implements the spec's underflow policy:
an updated child larger than a quarter page is never merged; otherwise an
existing left sibling whose size plus the child's size minus the 4-byte
header fits a page wins (direction -1); otherwise an existing right
sibling under the same size condition (direction +1); otherwise no merge.
The size hypotheses keep the `uint16` arithmetic of the source free of
wrap-around (any page the store returns is between an empty header, 4
bytes, and two pages). -/
theorem C7_shouldMerge (get : Nat → Buf) (node updated : Buf) (index : Nat)
    (hstore : ∀ p, 4 ≤ nbytes (get p) ∧ nbytes (get p) ≤ 8192) :
    (MERGE_THRESHOLD_BTYES < nbytes updated →
      shouldMerge get node index updated = (0, emptyBNode)) ∧
    (nbytes updated ≤ MERGE_THRESHOLD_BTYES → 0 < index →
      nbytes (get (getPtrD node (index - 1))) + nbytes updated - HEADER_SIZE ≤
        BTREE_PAGE_SIZE_BYTES →
      shouldMerge get node index updated = (-1, get (getPtrD node (index - 1)))) ∧
    (nbytes updated ≤ MERGE_THRESHOLD_BTYES →
      (index = 0 ∨ BTREE_PAGE_SIZE_BYTES <
        nbytes (get (getPtrD node (index - 1))) + nbytes updated - HEADER_SIZE) →
      index + 1 < nkeys node →
      nbytes (get (getPtrD node (index + 1))) + nbytes updated - HEADER_SIZE ≤
        BTREE_PAGE_SIZE_BYTES →
      shouldMerge get node index updated = (1, get (getPtrD node (index + 1)))) ∧
    (nbytes updated ≤ MERGE_THRESHOLD_BTYES →
      (index = 0 ∨ BTREE_PAGE_SIZE_BYTES <
        nbytes (get (getPtrD node (index - 1))) + nbytes updated - HEADER_SIZE) →
      (¬ index + 1 < nkeys node ∨ BTREE_PAGE_SIZE_BYTES <
        nbytes (get (getPtrD node (index + 1))) + nbytes updated - HEADER_SIZE) →
      shouldMerge get node index updated = (0, emptyBNode)) := by
  have hthr : MERGE_THRESHOLD_BTYES = 1024 := by decide
  have hmerged : nbytes updated ≤ 1024 → ∀ p,
      ((M16 (nbytes (get p) + nbytes updated + 65536 - HEADER_SIZE) ≤
        BTREE_PAGE_SIZE_BYTES) ↔
      (nbytes (get p) + nbytes updated - HEADER_SIZE ≤ BTREE_PAGE_SIZE_BYTES)) := by
    intro hu p
    have hs := hstore p
    unfold M16 HEADER_SIZE BTREE_PAGE_SIZE_BYTES
    omega
  refine ⟨?_, ?_, ?_, ?_⟩
  · intro h
    simp only [shouldMerge]
    rw [if_pos h]
  · intro hu hidx hfit
    have h1 : ¬ MERGE_THRESHOLD_BTYES < nbytes updated := by omega
    have hcond := ((hmerged (by omega) (getPtrD node (index - 1))).2 hfit)
    simp only [shouldMerge]
    rw [if_neg h1, if_pos hidx, if_pos hcond]
  · intro hu hleft hridx hfit
    have h1 : ¬ MERGE_THRESHOLD_BTYES < nbytes updated := by omega
    have hcond := ((hmerged (by omega) (getPtrD node (index + 1))).2 hfit)
    simp only [shouldMerge]
    rw [if_neg h1]
    rcases hleft with h0 | hL
    · rw [if_neg (by omega : ¬ 0 < index), if_pos hridx, if_pos hcond]
    · have hcondL : ¬ M16 (nbytes (get (getPtrD node (index - 1))) + nbytes updated +
          65536 - HEADER_SIZE) ≤ BTREE_PAGE_SIZE_BYTES := by
        intro hc
        exact absurd ((hmerged (by omega) (getPtrD node (index - 1))).1 hc) (by omega)
      by_cases hi0 : 0 < index
      · rw [if_pos hi0, if_neg hcondL, if_pos hridx, if_pos hcond]
      · rw [if_neg hi0, if_pos hridx, if_pos hcond]
  · intro hu hleft hright
    have h1 : ¬ MERGE_THRESHOLD_BTYES < nbytes updated := by omega
    simp only [shouldMerge]
    rw [if_neg h1]
    have hnoleft : (if 0 < index then
        (if M16 (nbytes (get (getPtrD node (index - 1))) + nbytes updated +
            65536 - HEADER_SIZE) ≤ BTREE_PAGE_SIZE_BYTES then
          some ((-1 : Int), get (getPtrD node (index - 1))) else none)
        else none) = (none : Option (Int × Buf)) := by
      rcases hleft with h0 | hL
      · rw [if_neg (by omega : ¬ 0 < index)]
      · by_cases hi0 : 0 < index
        · rw [if_pos hi0, if_neg]
          intro hc
          exact absurd ((hmerged (by omega) (getPtrD node (index - 1))).1 hc) (by omega)
        · rw [if_neg hi0]
    rw [hnoleft]
    rcases hright with hno | hR
    · rw [if_neg hno]
    · by_cases hri : index + 1 < nkeys node
      · rw [if_pos hri, if_neg]
        intro hc
        exact absurd ((hmerged (by omega) (getPtrD node (index + 1))).1 hc) (by omega)
      · rw [if_neg hri]

/-- Witness for C7: a parent with three children, all pages the minimal
4-byte empty node; the left sibling of child 1 exists and fits, so the
merge direction is -1 with that sibling. -/
theorem C7_shouldMerge_witness :
    shouldMerge (fun _ => zeroBuf) (setHeader zeroBuf NODE 3) 1 zeroBuf =
      (-1, zeroBuf) :=
  (C7_shouldMerge (fun _ => zeroBuf) (setHeader zeroBuf NODE 3) zeroBuf 1
    (fun _ => (⟨by decide, by decide⟩ :
      4 ≤ nbytes zeroBuf ∧ nbytes zeroBuf ≤ 8192))).2.1
    (by decide) (by decide) (by decide)

/-! ### Order lemmas for `bytesCompare` (`bytes.Compare`) -/

theorem bytesCompare_cases (a b : List Nat) :
    bytesCompare a b = -1 ∨ bytesCompare a b = 0 ∨ bytesCompare a b = 1 := by
  induction a generalizing b with
  | nil => cases b <;> simp [bytesCompare]
  | cons x xs ih =>
    cases b with
    | nil => simp [bytesCompare]
    | cons y ys =>
      unfold bytesCompare
      by_cases h1 : x < y
      · simp [h1]
      · by_cases h2 : y < x
        · simp [h1, h2]
        · simpa [h1, h2] using ih ys

theorem bytesCompare_eq_zero_iff (a : List Nat) :
    ∀ b : List Nat, bytesCompare a b = 0 ↔ a = b := by
  induction a with
  | nil => intro b; cases b <;> simp [bytesCompare]
  | cons x xs ih =>
    intro b
    cases b with
    | nil => simp [bytesCompare]
    | cons y ys =>
      unfold bytesCompare
      by_cases h1 : x < y
      · simp only [if_pos h1]
        constructor
        · intro h; exact absurd h (by decide)
        · intro h
          simp only [List.cons.injEq] at h
          omega
      · by_cases h2 : y < x
        · simp only [if_neg h1, if_pos h2]
          constructor
          · intro h; exact absurd h (by decide)
          · intro h
            simp only [List.cons.injEq] at h
            omega
        · have hxy : x = y := by omega
          subst hxy
          rw [if_neg h1, if_neg h2]
          simp only [ih ys, List.cons.injEq, true_and]

theorem bytesCompare_flip (a : List Nat) :
    ∀ b : List Nat, bytesCompare a b = -1 ↔ bytesCompare b a = 1 := by
  induction a with
  | nil => intro b; cases b <;> simp [bytesCompare]
  | cons x xs ih =>
    intro b
    cases b with
    | nil => simp [bytesCompare]
    | cons y ys =>
      unfold bytesCompare
      by_cases h1 : x < y
      · have h2 : ¬ y < x := by omega
        have h3 : ¬ x = y := by omega
        simp [h1, h2, h3]
      · by_cases h2 : y < x
        · simp [h1, h2]
        · have hxy : x = y := by omega
          subst hxy
          simp only [if_neg h1, if_neg h2]
          exact ih ys

theorem bytesCompare_trans_neg (a : List Nat) :
    ∀ b c : List Nat, bytesCompare a b = -1 → bytesCompare b c = -1 →
      bytesCompare a c = -1 := by
  induction a with
  | nil =>
    intro b c hab hbc
    cases c with
    | nil =>
      cases b with
      | nil => exact absurd hab (by simp [bytesCompare])
      | cons y ys => exact absurd hbc (by simp [bytesCompare])
    | cons z zs => simp [bytesCompare]
  | cons x xs ih =>
    intro b c hab hbc
    cases b with
    | nil => exact absurd hab (by simp [bytesCompare])
    | cons y ys =>
      cases c with
      | nil => exact absurd hbc (by simp [bytesCompare])
      | cons z zs =>
        unfold bytesCompare at hab hbc ⊢
        by_cases h1 : x < y
        · by_cases h2 : y < z
          · rw [if_pos (by omega : x < z)]
          · by_cases h3 : z < y
            · rw [if_neg h2, if_pos h3] at hbc
              exact absurd hbc (by decide)
            · have hyz : y = z := by omega
              rw [if_pos (by omega : x < z)]
        · by_cases h2 : y < x
          · rw [if_neg h1, if_pos h2] at hab
            exact absurd hab (by decide)
          · have hxy : x = y := by omega
            subst hxy
            rw [if_neg h1, if_neg h2] at hab
            by_cases h3 : x < z
            · rw [if_pos h3]
            · by_cases h4 : z < x
              · rw [if_neg h3, if_pos h4] at hbc
                exact absurd hbc (by decide)
              · rw [if_neg h3, if_neg h4] at hbc ⊢
                exact ih ys zs hab hbc

/-- Strict-below-or-equal composed with strict: `a ≤ b < c` gives `a < c`
in the `bytes.Compare` order. -/
theorem bytesCompare_neg_of_le_of_neg (a b c : List Nat)
    (hab : bytesCompare a b ≠ 1) (hbc : bytesCompare b c = -1) :
    bytesCompare a c = -1 := by
  rcases bytesCompare_cases a b with h | h | h
  · exact bytesCompare_trans_neg a b c h hbc
  · rw [(bytesCompare_eq_zero_iff a b).1 h]
    exact hbc
  · exact absurd h hab

/-- `a < b ≤ c` gives `a < c`. -/
theorem bytesCompare_neg_of_neg_of_le (a b c : List Nat)
    (hab : bytesCompare a b = -1) (hbc : bytesCompare b c ≠ 1) :
    bytesCompare a c = -1 := by
  rcases bytesCompare_cases b c with h | h | h
  · exact bytesCompare_trans_neg a b c hab h
  · rw [← (bytesCompare_eq_zero_iff b c).1 h]
    exact hab
  · exact absurd h hbc

/-- `≤` is transitive in the `bytes.Compare` order. -/
theorem bytesCompare_le_trans (a b c : List Nat)
    (hab : bytesCompare a b ≠ 1) (hbc : bytesCompare b c ≠ 1) :
    bytesCompare a c ≠ 1 := by
  rcases bytesCompare_cases a b with h | h | h
  · have := bytesCompare_neg_of_neg_of_le a b c h hbc
    omega
  · rw [(bytesCompare_eq_zero_iff a b).1 h]
    exact hbc
  · exact absurd h hab

/-! ### The node builder writes what the codec reads back -/

theorem cum_zero (es : List Entry) : cum es 0 = 0 := rfl

theorem entrySize_ge (e : Entry) : 4 ≤ entrySize e := by
  unfold entrySize
  omega

theorem getD_mem (es : List Entry) (i : Nat) (h : i < es.length) :
    es.getD i dEntry ∈ es := by
  rw [List.getD_eq_getElem es dEntry h]
  exact List.getElem_mem h

theorem cum_succ (es : List Entry) (j : Nat) (h : j < es.length) :
    cum es (j + 1) = cum es j + entrySize (es.getD j dEntry) := by
  unfold cum
  rw [List.take_succ, List.map_append, List.sum_append]
  rw [List.getElem?_eq_getElem h, List.getD_eq_getElem es dEntry h]
  simp

theorem cum_le_succ (es : List Entry) (j : Nat) : cum es j ≤ cum es (j + 1) := by
  by_cases h : j < es.length
  · rw [cum_succ es j h]
    omega
  · unfold cum
    rw [List.take_of_length_le (by omega), List.take_of_length_le (by omega)]

theorem cum_mono (es : List Entry) (i j : Nat) (h : i ≤ j) : cum es i ≤ cum es j := by
  induction j with
  | zero =>
    have : i = 0 := by omega
    rw [this]
  | succ m ih =>
    by_cases hij : i = m + 1
    · rw [hij]
    · exact Nat.le_trans (ih (by omega)) (cum_le_succ es m)

theorem cum_succ_le (es : List Entry) (j : Nat) (h : j < es.length) :
    cum es j + 4 ≤ cum es (j + 1) := by
  rw [cum_succ es j h]
  have := entrySize_ge (es.getD j dEntry)
  omega

/-- One step of the node-builder invariant: appending entry `j` into a
buffer satisfying `BuildInv es j` yields `BuildInv es (j + 1)`.  The size
bound keeps every computed position inside `uint16` range, so none of the
`M16` truncations bite. -/
theorem buildInv_step (es : List Entry)
    (hsz : 4 + 10 * es.length + cum es es.length ≤ 8192)
    (hbytes : ∀ e2 ∈ es, (∀ c ∈ e2.2.1, c < 256) ∧ (∀ c ∈ e2.2.2, c < 256))
    (j : Nat) (hj : j < es.length) (b : Buf) (h : BuildInv es j b) :
    BuildInv es (j + 1)
      (nodeAppendKeyVal b j (es.getD j dEntry).1 (es.getD j dEntry).2.1
        (es.getD j dEntry).2.2) := by
  obtain ⟨hn, hoff, hptr, hdata⟩ := h
  have hnb : es.length ≤ 818 := by omega
  have hcj : cum es (j + 1) = cum es j +
      (4 + (es.getD j dEntry).2.1.length + (es.getD j dEntry).2.2.length) := by
    rw [cum_succ es j hj]
    rfl
  have hcn : cum es (j + 1) ≤ cum es es.length := cum_mono es _ _ (by omega)
  have hck : cum es j ≤ cum es es.length := cum_mono es _ _ (by omega)
  -- opaque names for the successive buffers of the append
  obtain ⟨b1, hb1def⟩ : ∃ x : Buf, x = write64 b (4 + 8 * j) (es.getD j dEntry).1 :=
    ⟨_, rfl⟩
  obtain ⟨b2, hb2def⟩ : ∃ x : Buf, x = write16 b1 (4 + 10 * es.length + cum es j)
      (es.getD j dEntry).2.1.length := ⟨_, rfl⟩
  obtain ⟨b3, hb3def⟩ : ∃ x : Buf, x = write16 b2 (4 + 10 * es.length + cum es j + 2)
      (es.getD j dEntry).2.2.length := ⟨_, rfl⟩
  obtain ⟨b4, hb4def⟩ : ∃ x : Buf, x = writeBytes b3 (4 + 10 * es.length + cum es j + 4)
      (es.getD j dEntry).2.1 := ⟨_, rfl⟩
  obtain ⟨b5, hb5def⟩ : ∃ x : Buf, x = writeBytes b4
      (4 + 10 * es.length + cum es j + 4 + (es.getD j dEntry).2.1.length)
      (es.getD j dEntry).2.2 := ⟨_, rfl⟩
  obtain ⟨bf, hbfdef⟩ : ∃ x : Buf, x = write16 b5 (4 + 8 * es.length + 2 * j)
      (cum es (j + 1)) := ⟨_, rfl⟩
  -- step 1: the guarded setPtr succeeds and writes the pointer slot
  have hval : isValidIndex b j = true := by
    unfold isValidIndex
    rw [hn]
    exact decide_eq_true hj
  have hb1 : exceptD (setPtr b j (es.getD j dEntry).1) b = b1 := by
    simp only [setPtr, hval, if_true, exceptD]
    have hm : M16 (HEADER_SIZE + 8 * j) = 4 + 8 * j := by
      unfold M16 HEADER_SIZE
      omega
    rw [hm, hb1def]
  have hnkeys_b1 : nkeys b1 = es.length := by
    unfold nkeys
    rw [hb1def, read16_write64_out b _ _ 2 (by omega)]
    exact hn
  have hoff_b1 : ∀ i, i ≤ j → getOffset b1 i = cum es i := by
    intro i hi
    have hsame := hoff i hi
    unfold getOffset at hsame ⊢
    rw [hnkeys_b1]
    rw [hn] at hsame
    by_cases h0 : i = 0
    · rw [if_pos h0]
      rw [if_pos h0] at hsame
      exact hsame
    · rw [if_neg h0]
      rw [if_neg h0] at hsame
      have hm : M16 (HEADER_SIZE + 8 * es.length + 2 * (i - 1)) =
          4 + 8 * es.length + 2 * (i - 1) := by
        unfold M16 HEADER_SIZE
        omega
      rw [hm] at hsame ⊢
      rw [hb1def, read16_write64_out b _ _ _ (by omega)]
      exact hsame
  -- step 2: kvPos of the fresh slot is the start of entry j's record
  have hkv : kvPos b1 j = .ok (4 + 10 * es.length + cum es j) := by
    unfold kvPos
    rw [hnkeys_b1, if_pos (by omega : j ≤ es.length), hoff_b1 j (Nat.le_refl j)]
    have hm : M16 (HEADER_SIZE + 8 * es.length + 2 * es.length + cum es j) =
        4 + 10 * es.length + cum es j := by
      unfold M16 HEADER_SIZE
      omega
    rw [hm]
  -- reads strictly below the record see through the writes of b2-b5
  have hbyte5 : ∀ q, q < 4 + 10 * es.length + cum es j → byteAt b5 q = byteAt b1 q := by
    intro q hq
    rw [hb5def, byteAt_writeBytes_out _ _ _ _ (Or.inl (by omega)),
      hb4def, byteAt_writeBytes_out _ _ _ _ (Or.inl (by omega)),
      hb3def, byteAt_write16_out _ _ _ _ (Or.inl (by omega)),
      hb2def, byteAt_write16_out _ _ _ _ (Or.inl (by omega))]
  have hread16_5 : ∀ q, q + 1 < 4 + 10 * es.length + cum es j →
      read16 b5 q = read16 b1 q := by
    intro q hq
    unfold read16
    rw [hbyte5 q (by omega), hbyte5 (q + 1) (by omega)]
  have hnkeys_b5 : nkeys b5 = es.length := by
    unfold nkeys
    rw [hread16_5 2 (by omega)]
    exact hnkeys_b1
  have hoff_b5 : getOffset b5 j = cum es j := by
    have hsame := hoff_b1 j (Nat.le_refl j)
    unfold getOffset at hsame ⊢
    rw [hnkeys_b5]
    rw [hnkeys_b1] at hsame
    by_cases h0 : j = 0
    · rw [if_pos h0]
      rw [if_pos h0] at hsame
      exact hsame
    · rw [if_neg h0]
      rw [if_neg h0] at hsame
      have hm : M16 (HEADER_SIZE + 8 * es.length + 2 * (j - 1)) =
          4 + 8 * es.length + 2 * (j - 1) := by
        unfold M16 HEADER_SIZE
        omega
      rw [hm] at hsame ⊢
      rw [hread16_5 _ (by omega)]
      exact hsame
  -- step 3: the whole append is bf
  have hm2 : M16 (4 + 10 * es.length + cum es j + 2) =
      4 + 10 * es.length + cum es j + 2 := by
    unfold M16
    omega
  have hm4 : M16 (4 + 10 * es.length + cum es j + 4) =
      4 + 10 * es.length + cum es j + 4 := by
    unfold M16
    omega
  have hm4K : M16 (4 + 10 * es.length + cum es j + 4 + (es.getD j dEntry).2.1.length) =
      4 + 10 * es.length + cum es j + 4 + (es.getD j dEntry).2.1.length := by
    unfold M16
    omega
  have hfinal : nodeAppendKeyVal b j (es.getD j dEntry).1 (es.getD j dEntry).2.1
      (es.getD j dEntry).2.2 = bf := by
    simp only [nodeAppendKeyVal]
    rw [hb1, hkv]
    show setOffset
        (writeBytes
          (writeBytes
            (write16 (write16 b1 (4 + 10 * es.length + cum es j)
              (es.getD j dEntry).2.1.length)
              (M16 (4 + 10 * es.length + cum es j + 2)) (es.getD j dEntry).2.2.length)
            (M16 (4 + 10 * es.length + cum es j + 4)) (es.getD j dEntry).2.1)
          (M16 (4 + 10 * es.length + cum es j + 4 + (es.getD j dEntry).2.1.length))
          (es.getD j dEntry).2.2)
        (M16 (j + 1))
        (M16 (getOffset
          (writeBytes
            (writeBytes
              (write16 (write16 b1 (4 + 10 * es.length + cum es j)
                (es.getD j dEntry).2.1.length)
                (M16 (4 + 10 * es.length + cum es j + 2)) (es.getD j dEntry).2.2.length)
              (M16 (4 + 10 * es.length + cum es j + 4)) (es.getD j dEntry).2.1)
            (M16 (4 + 10 * es.length + cum es j + 4 + (es.getD j dEntry).2.1.length))
            (es.getD j dEntry).2.2) j +
          4 + (es.getD j dEntry).2.1.length + (es.getD j dEntry).2.2.length)) = bf
    rw [hm2, hm4, hm4K, ← hb2def, ← hb3def, ← hb4def, ← hb5def, hoff_b5]
    have hmj : M16 (j + 1) = j + 1 := by
      unfold M16
      omega
    have hmoff : M16 (cum es j + 4 + (es.getD j dEntry).2.1.length +
        (es.getD j dEntry).2.2.length) = cum es (j + 1) := by
      unfold M16
      omega
    rw [hmj, hmoff]
    unfold setOffset
    rw [if_neg (by omega : ¬ j + 1 = 0), hnkeys_b5]
    have hm : M16 (HEADER_SIZE + 8 * es.length + 2 * (j + 1 - 1)) =
        4 + 8 * es.length + 2 * j := by
      unfold M16 HEADER_SIZE
      omega
    rw [hm, ← hbfdef]
  rw [hfinal]
  -- pointwise views of the final buffer
  have hbyte_low : ∀ q, q < 4 + 8 * es.length + 2 * j → byteAt bf q = byteAt b1 q := by
    intro q hq
    rw [hbfdef, byteAt_write16_out _ _ _ _ (Or.inl hq), hbyte5 q (by omega)]
  have hbyte_rec : ∀ q, 4 + 8 * es.length + 2 * j + 2 ≤ q → byteAt bf q = byteAt b5 q := by
    intro q hq
    rw [hbfdef, byteAt_write16_out _ _ _ _ (Or.inr hq)]
  have hread16_low : ∀ q, q + 1 < 4 + 8 * es.length + 2 * j →
      read16 bf q = read16 b1 q := by
    intro q hq
    unfold read16
    rw [hbyte_low q (by omega), hbyte_low (q + 1) (by omega)]
  have hnkeys_bf : nkeys bf = es.length := by
    unfold nkeys
    rw [hread16_low 2 (by omega)]
    exact hnkeys_b1
  refine ⟨hnkeys_bf, ?_, ?_, ?_⟩
  · -- offset slots
    intro i hi
    by_cases h0 : i = 0
    · rw [h0, getOffset_zero, cum_zero]
    · unfold getOffset
      rw [hnkeys_bf, if_neg h0]
      by_cases hij : i = j + 1
      · have hm : M16 (HEADER_SIZE + 8 * es.length + 2 * (i - 1)) =
            4 + 8 * es.length + 2 * j := by
          unfold M16 HEADER_SIZE
          omega
        rw [hm, hbfdef, read16_write16_self]
        rw [hij]
        omega
      · have hi2 : i ≤ j := by omega
        have hsame := hoff_b1 i hi2
        unfold getOffset at hsame
        rw [hnkeys_b1, if_neg h0] at hsame
        have hm : M16 (HEADER_SIZE + 8 * es.length + 2 * (i - 1)) =
            4 + 8 * es.length + 2 * (i - 1) := by
          unfold M16 HEADER_SIZE
          omega
        rw [hm] at hsame ⊢
        rw [hread16_low _ (by omega)]
        exact hsame
  · -- child pointer slots
    intro i hi
    have hread64_low : ∀ q, q + 7 < 4 + 8 * es.length + 2 * j →
        read64 bf q = read64 b1 q := by
      intro q hq
      unfold read64
      rw [hbyte_low q (by omega), hbyte_low (q + 1) (by omega),
        hbyte_low (q + 2) (by omega), hbyte_low (q + 3) (by omega),
        hbyte_low (q + 4) (by omega), hbyte_low (q + 5) (by omega),
        hbyte_low (q + 6) (by omega), hbyte_low (q + 7) (by omega)]
    rw [hread64_low _ (by omega)]
    by_cases hij : i = j
    · rw [hij, hb1def, read64_write64_self]
    · rw [hb1def, read64_write64_out b _ _ _ (by omega)]
      exact hptr i (by omega)
  · -- data records
    intro i hi
    by_cases hij : i = j
    · rw [hij]
      have hbmem := hbytes (es.getD j dEntry) (getD_mem es j hj)
      have hkey16 : ∀ q, q < 4 + 10 * es.length + cum es j + 2 →
          byteAt b5 q = byteAt b2 q := by
        intro q hq
        rw [hb5def, byteAt_writeBytes_out _ _ _ _ (Or.inl (by omega)),
          hb4def, byteAt_writeBytes_out _ _ _ _ (Or.inl (by omega)),
          hb3def, byteAt_write16_out _ _ _ _ (Or.inl (by omega))]
      have hval16 : ∀ q, q < 4 + 10 * es.length + cum es j + 4 →
          byteAt b5 q = byteAt b3 q := by
        intro q hq
        rw [hb5def, byteAt_writeBytes_out _ _ _ _ (Or.inl (by omega)),
          hb4def, byteAt_writeBytes_out _ _ _ _ (Or.inl (by omega))]
      refine ⟨?_, ?_, ?_, ?_⟩
      · -- key length field
        unfold read16
        rw [hbyte_rec _ (by omega), hbyte_rec _ (by omega),
          hkey16 _ (by omega), hkey16 _ (by omega), hb2def]
        have hself := read16_write16_self b1 (4 + 10 * es.length + cum es j)
          (es.getD j dEntry).2.1.length
        unfold read16 at hself
        rw [hself]
        omega
      · -- value length field
        unfold read16
        rw [hbyte_rec _ (by omega), hbyte_rec _ (by omega),
          hval16 _ (by omega), hval16 _ (by omega), hb3def]
        have hself := read16_write16_self b2 (4 + 10 * es.length + cum es j + 2)
          (es.getD j dEntry).2.2.length
        unfold read16 at hself
        rw [hself]
        omega
      · -- key bytes
        rw [readBytes_congr bf b5 _ _ (fun d hd2 => hbyte_rec _ (by omega))]
        rw [hb5def, readBytes_writeBytes_out _ _ _ _ _ (Or.inl (by omega)), hb4def]
        exact readBytes_writeBytes_self _ _ _ hbmem.1
      · -- value bytes
        rw [readBytes_congr bf b5 _ _ (fun d hd2 => hbyte_rec _ (by omega))]
        rw [hb5def]
        exact readBytes_writeBytes_self _ _ _ hbmem.2
    · -- an older record, untouched by every new write
      have hij2 : i < j := by omega
      have hd := hdata i hij2
      have hci : cum es (i + 1) = cum es i + (4 + (es.getD i dEntry).2.1.length +
          (es.getD i dEntry).2.2.length) := by
        rw [cum_succ es i (by omega)]
        rfl
      have hcij : cum es (i + 1) ≤ cum es j := cum_mono es _ _ (by omega)
      have hagree : ∀ q, 4 + 10 * es.length + cum es i ≤ q →
          q < 4 + 10 * es.length + cum es (i + 1) → byteAt bf q = byteAt b q := by
        intro q hq1 hq2
        rw [hbyte_rec q (by omega), hbyte5 q (by omega), hb1def,
          byteAt_write64_out _ _ _ _ (by omega)]
      refine ⟨?_, ?_, ?_, ?_⟩
      · unfold read16
        rw [hagree _ (by omega) (by omega), hagree _ (by omega) (by omega)]
        exact hd.1
      · unfold read16
        rw [hagree _ (by omega) (by omega), hagree _ (by omega) (by omega)]
        exact hd.2.1
      · rw [readBytes_congr bf b _ _ (fun d hd2 => hagree _ (by omega) (by omega))]
        exact hd.2.2.1
      · rw [readBytes_congr bf b _ _ (fun d hd2 => hagree _ (by omega) (by omega))]
        exact hd.2.2.2

/-- The fresh header-only buffer satisfies the builder invariant at 0. -/
theorem buildInv_zero (es : List Entry) (t : Nat) (hnb : es.length ≤ 818) :
    BuildInv es 0 (setHeader zeroBuf t es.length) := by
  refine ⟨?_, ?_, ?_, ?_⟩
  · rw [nkeys_setHeader]
    exact Nat.mod_eq_of_lt (by omega)
  · intro i hi
    have h0 : i = 0 := by omega
    rw [h0, getOffset_zero, cum_zero]
  · intro i hi
    omega
  · intro i hi
    omega

/-- Folding the append over a suffix of the entry list preserves the
builder invariant up to the full length. -/
theorem buildAux_inv (es : List Entry)
    (hsz : 4 + 10 * es.length + cum es es.length ≤ 8192)
    (hbytes : ∀ e2 ∈ es, (∀ c ∈ e2.2.1, c < 256) ∧ (∀ c ∈ e2.2.2, c < 256)) :
    ∀ (rest : List Entry) (j : Nat) (b : Buf), rest = es.drop j →
      j + rest.length = es.length → BuildInv es j b →
      BuildInv es es.length (buildAux b j rest) := by
  intro rest
  induction rest with
  | nil =>
    intro j b _ hlen h
    have hj : j = es.length := by
      simp at hlen
      omega
    rw [← hj]
    exact h
  | cons e2 tail ih =>
    intro j b hdrop hlen b2
    have hj : j < es.length := by
      simp at hlen
      omega
    have hcons : e2 :: tail = es.getD j dEntry :: es.drop (j + 1) := by
      rw [hdrop, List.drop_eq_getElem_cons hj, List.getD_eq_getElem es dEntry hj]
    have he2 : e2 = es.getD j dEntry := by
      injection hcons
    have htail : tail = es.drop (j + 1) := by
      injection hcons with h1 h2
    simp only [buildAux]
    rw [he2]
    apply ih (j + 1) _ htail
    · simp at hlen ⊢
      omega
    · exact buildInv_step es hsz hbytes j hj b b2

/-- C3: confirmed (with `nodeAppendKeyVal` modelled from the spec, since
its body is an empty stub in the sources).  A node buffer assembled by
setting the header and appending each entry in order decodes back, through
`getKey`, `getValue` and `getPtr`, to exactly the keys, values and
pointers that were appended, in order.  The hypotheses are the conditions
under which the program builds nodes: entries are byte strings, pointers
are 64-bit, and the encoded node fits the program's two-page scratch
buffer (8192 bytes), which keeps every `uint16` position exact. -/
theorem C3_roundtrip (t : Nat) (es : List Entry)
    (hsz : 4 + 10 * es.length + cum es es.length ≤ 8192)
    (hbytes : ∀ e2 ∈ es, (∀ c ∈ e2.2.1, c < 256) ∧ (∀ c ∈ e2.2.2, c < 256))
    (hptr : ∀ e2 ∈ es, e2.1 < 18446744073709551616) :
    ∀ i, i < es.length →
      getKey (buildNode t es) i = .ok (es.getD i dEntry).2.1 ∧
      getValue (buildNode t es) i = .ok (es.getD i dEntry).2.2 ∧
      getPtr (buildNode t es) i = .ok (es.getD i dEntry).1 := by
  have hnb : es.length ≤ 818 := by omega
  have hinv : BuildInv es es.length (buildNode t es) := by
    unfold buildNode
    exact buildAux_inv es hsz hbytes es 0 _ rfl (by simp)
      (buildInv_zero es t hnb)
  obtain ⟨hn, hoff, hptr64, hdata⟩ := hinv
  intro i hi
  have hcle : cum es i ≤ cum es es.length := cum_mono es _ _ (by omega)
  have hci : cum es (i + 1) = cum es i + (4 + (es.getD i dEntry).2.1.length +
      (es.getD i dEntry).2.2.length) := by
    rw [cum_succ es i hi]
    rfl
  have hcle2 : cum es (i + 1) ≤ cum es es.length := cum_mono es _ _ (by omega)
  have hkv : kvPos (buildNode t es) i = .ok (4 + 10 * es.length + cum es i) := by
    unfold kvPos
    rw [hn, if_pos (by omega : i ≤ es.length), hoff i (by omega)]
    have hm : M16 (HEADER_SIZE + 8 * es.length + 2 * es.length + cum es i) =
        4 + 10 * es.length + cum es i := by
      unfold M16 HEADER_SIZE
      omega
    rw [hm]
  have hd := hdata i hi
  refine ⟨?_, ?_, ?_⟩
  · -- getKey
    unfold getKey
    rw [hn, if_neg (by omega : ¬ es.length ≤ i), hkv]
    show Except.ok (readBytes (buildNode t es)
      (M16 (4 + 10 * es.length + cum es i + 4))
      (read16 (buildNode t es) (4 + 10 * es.length + cum es i))) = _
    rw [hd.1]
    have hm : M16 (4 + 10 * es.length + cum es i + 4) =
        4 + 10 * es.length + cum es i + 4 := by
      unfold M16
      omega
    rw [hm, hd.2.2.1]
  · -- getValue
    unfold getValue
    rw [hn, if_neg (by omega : ¬ es.length ≤ i), hkv]
    show Except.ok (readBytes (buildNode t es)
      (M16 (4 + 10 * es.length + cum es i + 4 +
        read16 (buildNode t es) (4 + 10 * es.length + cum es i)))
      (read16 (buildNode t es) (M16 (4 + 10 * es.length + cum es i + 2)))) = _
    have hm2 : M16 (4 + 10 * es.length + cum es i + 2) =
        4 + 10 * es.length + cum es i + 2 := by
      unfold M16
      omega
    rw [hm2, hd.1, hd.2.1]
    have hm : M16 (4 + 10 * es.length + cum es i + 4 +
        (es.getD i dEntry).2.1.length) =
        4 + 10 * es.length + cum es i + 4 + (es.getD i dEntry).2.1.length := by
      unfold M16
      omega
    rw [hm, hd.2.2.2]
  · -- getPtr
    have hval : isValidIndex (buildNode t es) i = true := by
      unfold isValidIndex
      rw [hn]
      exact decide_eq_true hi
    simp only [getPtr, hval, if_true]
    have hm : M16 (HEADER_SIZE + 8 * i) = 4 + 8 * i := by
      unfold M16 HEADER_SIZE
      omega
    rw [hm, hptr64 i hi,
      Nat.mod_eq_of_lt (hptr (es.getD i dEntry) (getD_mem es i hi))]

/-- Witness for C3: a two-entry LEAF round-trips both entries. -/
theorem C3_roundtrip_witness :
    getKey (buildNode LEAF [(7, [1], [2]), (9, [3, 4], [5])]) 1 = .ok [3, 4] ∧
      getValue (buildNode LEAF [(7, [1], [2]), (9, [3, 4], [5])]) 1 = .ok [5] ∧
      getPtr (buildNode LEAF [(7, [1], [2]), (9, [3, 4], [5])]) 1 = .ok 9 :=
  C3_roundtrip LEAF [(7, [1], [2]), (9, [3, 4], [5])]
    (by decide) (by decide) (by decide) 1 (by decide)

/-- The scan loop of `nodeLookupLE`, characterized on a node whose keys
are the list `ks`: starting at index `i` with every earlier key strictly
below the search key, the loop returns the last index whose key is ≤ the
search key, or `i - 1` in `uint16` when every remaining key is greater. -/
theorem nlLoop_spec (node : Buf) (key : List Nat) (ks : List (List Nat))
    (hget : ∀ i, i < ks.length → getKeyD node i = ks.getD i [])
    (hsorted : List.Pairwise (fun a b => bytesCompare a b = -1) ks)
    (hlen : ks.length < 65536) :
    ∀ rem i, i + rem = ks.length →
      (∀ j, j < i → bytesCompare (ks.getD j []) key = -1) →
      (((∃ j, i ≤ j ∧ j < ks.length ∧ bytesCompare (ks.getD j []) key ≠ 1) →
        nlLoop node key i rem < ks.length ∧
        bytesCompare (ks.getD (nlLoop node key i rem) []) key ≠ 1 ∧
        (∀ j, j < ks.length → bytesCompare (ks.getD j []) key ≠ 1 →
          j ≤ nlLoop node key i rem)) ∧
      ((∀ j, i ≤ j → j < ks.length → bytesCompare key (ks.getD j []) = -1) →
        nlLoop node key i rem = M16 (i + 65535))) := by
  have hlt : ∀ p q, p < q → q < ks.length →
      bytesCompare (ks.getD p []) (ks.getD q []) = -1 := by
    intro p q hpq hq
    have hp : p < ks.length := by omega
    rw [List.getD_eq_getElem ks [] hp, List.getD_eq_getElem ks [] hq]
    exact List.pairwise_iff_getElem.1 hsorted p q hp hq hpq
  intro rem
  induction rem with
  | zero =>
    intro i hi hpre
    constructor
    · rintro ⟨j, hj1, hj2, _⟩
      omega
    · intro _
      rfl
  | succ m ih =>
    intro i hi hpre
    have hiL : i < ks.length := by omega
    have hki := hget i hiL
    rcases bytesCompare_cases (ks.getD i []) key with hc | hc | hc
    · -- the key at `i` is strictly below the search key: the loop advances
      have hstep : nlLoop node key i (m + 1) = nlLoop node key (i + 1) m := by
        simp only [nlLoop]
        rw [hki, hc, if_neg (by decide : ¬ (-1 : Int) = 0),
          if_neg (by decide : ¬ (0 : Int) < -1)]
      have hpre2 : ∀ j, j < i + 1 → bytesCompare (ks.getD j []) key = -1 := by
        intro j hj
        by_cases hji : j = i
        · rw [hji]
          exact hc
        · exact hpre j (by omega)
      have IH := ih (i + 1) (by omega) hpre2
      constructor
      · rintro ⟨j, hj1, hj2, hj3⟩
        rw [hstep]
        by_cases hex : ∃ j2, i + 1 ≤ j2 ∧ j2 < ks.length ∧
            bytesCompare (ks.getD j2 []) key ≠ 1
        · exact IH.1 hex
        · push_neg at hex
          have hall : ∀ j2, i + 1 ≤ j2 → j2 < ks.length →
              bytesCompare key (ks.getD j2 []) = -1 := by
            intro j2 h1 h2
            exact (bytesCompare_flip key (ks.getD j2 [])).2 (hex j2 h1 h2)
          have hresi : nlLoop node key (i + 1) m = i := by
            rw [IH.2 hall]
            unfold M16
            omega
          rw [hresi]
          refine ⟨hiL, by rw [hc]; decide, ?_⟩
          intro j2 hj2L hj2c
          by_cases h : i + 1 ≤ j2
          · exact absurd (hex j2 h hj2L) hj2c
          · omega
      · intro hall
        have h1 := hall i (Nat.le_refl i) hiL
        have hflip := (bytesCompare_flip key (ks.getD i [])).1 h1
        rw [hc] at hflip
        exact absurd hflip (by decide)
    · -- the key at `i` equals the search key: the loop returns `i`
      have heq := (bytesCompare_eq_zero_iff _ _).1 hc
      have hstep : nlLoop node key i (m + 1) = i := by
        simp only [nlLoop]
        rw [hki, hc, if_pos rfl]
      constructor
      · intro _
        rw [hstep]
        refine ⟨hiL, by rw [hc]; decide, ?_⟩
        intro j hjL hjc
        by_contra hji
        push_neg at hji
        have hlt2 := hlt i j hji hjL
        have h2 : bytesCompare key (ks.getD j []) = -1 := by
          rw [← heq]
          exact hlt2
        exact hjc ((bytesCompare_flip _ _).1 h2)
      · intro hall
        have h1 := hall i (Nat.le_refl i) hiL
        rw [heq] at h1
        have h3 : bytesCompare key key = 0 := (bytesCompare_eq_zero_iff key key).2 rfl
        rw [h3] at h1
        exact absurd h1 (by decide)
    · -- the key at `i` is strictly above the search key: `i - 1` in uint16
      have hstep : nlLoop node key i (m + 1) = M16 (i + 65535) := by
        simp only [nlLoop]
        rw [hki, hc, if_neg (by decide : ¬ (1 : Int) = 0),
          if_pos (by decide : (0 : Int) < 1)]
      constructor
      · rintro ⟨j, hj1, hj2, hj3⟩
        exfalso
        by_cases hji : j = i
        · rw [hji, hc] at hj3
          exact hj3 rfl
        · have hij : i < j := by omega
          have hlt2 := hlt i j hij hj2
          have hk1 : bytesCompare key (ks.getD i []) = -1 := (bytesCompare_flip _ _).2 hc
          have h2 : bytesCompare key (ks.getD j []) = -1 :=
            bytesCompare_trans_neg _ _ _ hk1 hlt2
          exact hj3 ((bytesCompare_flip _ _).1 h2)
      · intro _
        exact hstep

/-- C4: confirmed.  On a node whose decoded keys `ks` are strictly
increasing, `nodeLookupLE` returns the underflow sentinel 65535 (`-1`
wrapped in `uint16`) when the search key is below every key, and otherwise
the index of the last entry whose key is ≤ the search key; read through
the signed interpretation of the sentinel (`lookupZ`), the result is
monotonically non-decreasing in the search key. -/
theorem C4_nodeLookupLE (node : Buf) (key : List Nat) (ks : List (List Nat))
    (hn : nkeys node = ks.length)
    (hget : ∀ i, i < ks.length → getKeyD node i = ks.getD i [])
    (hsorted : List.Pairwise (fun a b => bytesCompare a b = -1) ks) :
    ((∀ j, j < ks.length → bytesCompare key (ks.getD j []) = -1) →
      nodeLookupLE node key = 65535) ∧
    ((∃ jw, jw < ks.length ∧ bytesCompare (ks.getD jw []) key ≠ 1) →
      nodeLookupLE node key < ks.length ∧
      bytesCompare (ks.getD (nodeLookupLE node key) []) key ≠ 1 ∧
      (∀ j, j < ks.length → bytesCompare (ks.getD j []) key ≠ 1 →
        j ≤ nodeLookupLE node key)) ∧
    (∀ key2, bytesCompare key key2 ≠ 1 → lookupZ node key ≤ lookupZ node key2) := by
  have hlen : ks.length < 65536 := by
    rw [← hn]
    exact nkeys_lt node
  have hnl : ∀ k : List Nat, nodeLookupLE node k = nlLoop node k 0 ks.length := by
    intro k
    unfold nodeLookupLE
    rw [hn]
  have hchar : ∀ k : List Nat,
      ((∃ j, j < ks.length ∧ bytesCompare (ks.getD j []) k ≠ 1) →
        nodeLookupLE node k < ks.length ∧
        bytesCompare (ks.getD (nodeLookupLE node k) []) k ≠ 1 ∧
        (∀ j, j < ks.length → bytesCompare (ks.getD j []) k ≠ 1 →
          j ≤ nodeLookupLE node k)) ∧
      ((∀ j, j < ks.length → bytesCompare k (ks.getD j []) = -1) →
        nodeLookupLE node k = 65535) := by
    intro k
    have h := nlLoop_spec node k ks hget hsorted hlen ks.length 0 (by omega)
      (fun j hj => absurd hj (by omega))
    rw [hnl k]
    constructor
    · rintro ⟨j, hj1, hj2⟩
      exact h.1 ⟨j, by omega, hj1, hj2⟩
    · intro hall
      rw [h.2 (fun j _ hj => hall j hj)]
      decide
  refine ⟨(hchar key).2, (hchar key).1, ?_⟩
  intro key2 h12
  by_cases hex : ∃ j, j < ks.length ∧ bytesCompare (ks.getD j []) key ≠ 1
  · have r1 := (hchar key).1 hex
    rcases hex with ⟨jw, hjw1, hjw2⟩
    have hjw3 : bytesCompare (ks.getD jw []) key2 ≠ 1 :=
      bytesCompare_le_trans _ _ _ hjw2 h12
    have r2 := (hchar key2).1 ⟨jw, hjw1, hjw3⟩
    have hle : nodeLookupLE node key ≤ nodeLookupLE node key2 := by
      apply r2.2.2 (nodeLookupLE node key) r1.1
      exact bytesCompare_le_trans _ _ _ r1.2.1 h12
    unfold lookupZ
    rw [if_neg (by omega : ¬ nodeLookupLE node key = 65535),
      if_neg (by omega : ¬ nodeLookupLE node key2 = 65535)]
    exact_mod_cast hle
  · push_neg at hex
    have hall : ∀ j, j < ks.length → bytesCompare key (ks.getD j []) = -1 := by
      intro j hj
      exact (bytesCompare_flip key (ks.getD j [])).2 (hex j hj)
    have r1 := (hchar key).2 hall
    unfold lookupZ
    rw [if_pos r1]
    split
    · exact Int.le_refl (-1)
    · omega

/-- Witness for C4 at a concrete sorted two-key node: searching for "a"
finds the last (and equal) key at index 1. -/
theorem C4_nodeLookupLE_witness :
    nodeLookupLE c4node [97] < ([[], [97]] : List (List Nat)).length ∧
      bytesCompare (([[], [97]] : List (List Nat)).getD (nodeLookupLE c4node [97]) [])
        [97] ≠ 1 := by
  have h := (C4_nodeLookupLE c4node [97] [[], [97]] (by decide) (by decide)
    (by decide)).2.1 ⟨1, by decide, by decide⟩
  exact ⟨h.1, h.2.1⟩

/-- C9: confirmed (with `checkLimit` modelled from the spec, since only
its call site exists in the sources).  When the key exceeds 1000 bytes or
the value exceeds 3000 bytes, `Insert` returns a size-limit error and the
returned handle state is exactly the input state — same root id, same
pages, and the `create`/`del` call logs are untouched.  Within the limits
`Insert` never returns an error (insert-or-update, no already-exists
failure): whenever the embedded recursion completes, the error component
is `none`. -/
theorem C9_insert_limits (fuel : Nat) (t : TState) (key val : List Nat) :
    (BTREE_MAX_KEY_SIZE_BYTES < key.length ∨ BREE_MAX_VAL_SIZE_BYTES < val.length →
      ∃ e, Insert fuel t key val = some (t, some e)) ∧
    (key.length ≤ BTREE_MAX_KEY_SIZE_BYTES → val.length ≤ BREE_MAX_VAL_SIZE_BYTES →
      ∀ t2 e, Insert fuel t key val = some (t2, e) → e = none) := by
  constructor
  · intro h
    by_cases hk : BTREE_MAX_KEY_SIZE_BYTES < key.length
    · refine ⟨"key size limit exceeded", ?_⟩
      simp only [Insert, checkLimit]
      rw [if_pos hk]
    · have hv : BREE_MAX_VAL_SIZE_BYTES < val.length := by tauto
      refine ⟨"value size limit exceeded", ?_⟩
      simp only [Insert, checkLimit]
      rw [if_neg hk, if_pos hv]
  · intro hk hv t2 e heq
    have hchk : checkLimit key val = .ok () := by
      unfold checkLimit
      rw [if_neg (by omega), if_neg (by omega)]
    simp only [Insert, hchk] at heq
    by_cases hr : t.root = 0
    · rw [if_pos hr] at heq
      injection heq with h1
      injection h1 with h2 h3
      exact h3.symm
    · rw [if_neg hr] at heq
      split at heq
      · cases heq
      · split at heq
        · injection heq with h1
          injection h1 with h2 h3
          exact h3.symm
        · injection heq with h1
          injection h1 with h2 h3
          exact h3.symm

/-- Witness for C9: a 1001-byte key on the empty-tree state is refused
with the state returned unchanged, and the in-limits insert of "a"→"1"
returns no error. -/
theorem C9_insert_limits_witness :
    (∃ e, Insert 0 c8state (List.replicate 1001 0) [] = some (c8state, some e)) ∧
      (c8res.getD (c8state, none)).2 = none := by
  constructor
  · exact (C9_insert_limits 0 c8state (List.replicate 1001 0) []).1
      (Or.inl (by rw [List.length_replicate]; decide))
  · exact (C9_insert_limits 0 c8state [97] [49]).2 (by decide) (by decide)
      c8t ((c8res.getD (c8state, none)).2) rfl

/-- C1: refuted on the code.  In `treeInsert`'s LEAF branch the looked-up
key shadows the parameter and is compared with itself, so inserting the
fresh key "b" into a leaf holding "a" runs `leafUpdate` instead of
`leafInsert`: the result still has 2 entries, key "b" is absent, and the
entry holding key "a" now carries "b"'s value "2". -/
theorem C1_evaluation :
    c1res.isSome = true ∧ nkeys c1buf = 2 ∧ keysOf c1buf = [[], [97]] ∧
      getValD c1buf 1 = [50] ∧ ¬ [98] ∈ keysOf c1buf := by
  decide

/-- C2: refuted on the code.  `leafInsert` at index 1 of a one-entry leaf
sets the header to 2 entries but copies only the prefix
`old[0:1]`: entry 1 is never written, so its key decodes as the empty
string rather than the inserted key "b" and its value as empty rather than
"2". -/
theorem C2_evaluation :
    nkeys c2buf = 2 ∧ getKeyD c2buf 0 = [97] ∧
      exceptIsOk (getKey c2buf 1) = true ∧ getKeyD c2buf 1 = [] ∧
      getValD c2buf 1 = [] ∧ ¬ getKeyD c2buf 1 = [98] ∧ ¬ getValD c2buf 1 = [50] := by
  decide

/-- C5: refuted on the code.  On the five-entry node `c5old`,
`nodeSplitInHalf` succeeds with 2 left and 3 right entries, but the right
half is copied from source index 0 instead of `numleft`, so the
concatenation of the halves repeats entries 0-1 and loses entries 3-4. -/
theorem C5_evaluation :
    exceptIsOk c5res = true ∧ nkeys c5old = 5 ∧ nbytes c5old = 534 ∧
      keysOf c5old = [[1], [2], [3, 3, 3, 3], [4], [5]] ∧
      keysOf c5pair.1 ++ keysOf c5pair.2 = [[1], [2], [1], [2], [3, 3, 3, 3]] ∧
      ¬ keysOf c5pair.1 ++ keysOf c5pair.2 = keysOf c5old := by
  decide

set_option maxRecDepth 40000 in
/-- C6: refuted on the code.  On the five-entry, exactly-two-page node
`c6old`, `nodeSplitInHalf` succeeds (its `right_bytes` check uses the
nonsensical `old.nbytes() - left_bytes()*4`), and the right output buffer
has encoded size 4162 bytes, exceeding the one-page budget of 4096. -/
theorem C6_evaluation :
    exceptIsOk c6res = true ∧ nkeys c6old = 5 ∧ nbytes c6old = 8192 ∧
      nbytes c6pair.2 = 4162 ∧ 4096 < nbytes c6pair.2 := by
  decide

/-- C8: refuted on the code.  `Insert("a","1")` on the empty tree returns
no error and installs a root LEAF page with two entries, but both entries
hold the empty key and the empty value: the inserted pair `a→1` is not
stored anywhere (the source appends `(1, nil, nil)` instead of the key and
value). -/
theorem C8_evaluation :
    c8res.isSome = true ∧ (c8res.getD (c8state, none)).2 = none ∧
      c8t.root = 1 ∧ nkeys c8root = 2 ∧ keysOf c8root = [[], []] ∧
      getValD c8root 0 = [] ∧ getValD c8root 1 = [] ∧ ¬ [97] ∈ keysOf c8root := by
  decide

end DBGo
